import Mathlib

/-!
Shallow embedding of the EDA text-augmentation engine (eda.py) and proofs
about its specification claims.

Strings are modelled as `List Char`; Python floats as `ℚ`; Python machine
randomness as explicit oracle streams passed to each function; fallible or
possibly non-terminating code returns `Option` (with explicit fuel for the
one unbounded loop).
-/

namespace EdaNlp

/-- The character set `string.ascii_lowercase + " "` (`__VALID_CHARS`). -/
def validChar (c : Char) : Bool :=
  (Char.ofNat 97 ≤ c && c ≤ Char.ofNat 122) || c = ' '

/-- Scanning loop of Python `str.replace(needle, repl)` on char lists:
leftmost, non-overlapping replacement; the needle is `n0 :: ntl` (always
nonempty in `get_only_chars`).  The fuel argument is only a structural
bound on the number of scanning steps; `listReplace` supplies the length
of the scanned list, which always suffices. -/
def listReplaceF (n0 : Char) (ntl repl : List Char) : ℕ → List Char → List Char
  | 0, s => s
  | _ + 1, [] => []
  | fuel + 1, c :: rest =>
    if (n0 :: ntl).isPrefixOf (c :: rest) then
      repl ++ listReplaceF n0 ntl repl fuel (rest.drop ntl.length)
    else
      c :: listReplaceF n0 ntl repl fuel rest

/-- Python `str.replace(needle, repl)` with needle `n0 :: ntl`. -/
def listReplace (n0 : Char) (ntl repl : List Char) (s : List Char) : List Char :=
  listReplaceF n0 ntl repl s.length s

/-- `re.sub(" +", " ", s)`: collapse each maximal run of spaces to one. -/
def squeezeSpaces : List Char → List Char
  | [] => []
  | [c] => [c]
  | c1 :: c2 :: rest =>
    if c1 = ' ' && c2 = ' ' then squeezeSpaces (c2 :: rest)
    else c1 :: squeezeSpaces (c2 :: rest)

/-- The ASCII whitespace characters stripped by Python `str.strip()`. -/
def pyWS (c : Char) : Bool :=
  c = ' ' || c = Char.ofNat 9 || c = Char.ofNat 10 ||
    c = Char.ofNat 13 || c = Char.ofNat 11 || c = Char.ofNat 12

/-- Python `str.strip()`: drop whitespace from both ends. -/
def pyStrip (l : List Char) : List Char :=
  ((l.dropWhile pyWS).reverse.dropWhile pyWS).reverse

/-- `get_only_chars` from eda.py: drop the mojibake sequence
(U+00E2, U+20AC, U+2122) and apostrophes, turn hyphens/tabs/newlines into
spaces, lowercase (Python `str.lower`, of which the ASCII fragment is
relevant after the later filter), replace every character outside
`__VALID_CHARS` by a space, collapse space runs, and strip the ends. -/
def get_only_chars (line : List Char) : List Char :=
  let s1 := listReplace (Char.ofNat 226) [Char.ofNat 8364, Char.ofNat 8482] [] line
  let s2 := listReplace (Char.ofNat 39) [] [] s1
  let s3 := listReplace (Char.ofNat 45) [] [' '] s2
  let s4 := listReplace (Char.ofNat 9) [] [' '] s3
  let s5 := listReplace (Char.ofNat 10) [] [' '] s4
  let s6 := s5.map Char.toLower
  let s7 := s6.map (fun c => if validChar c then c else ' ')
  pyStrip (squeezeSpaces s7)

example : get_only_chars "The  quick -fox.".toList = "the quick fox".toList := by decide

example :
    get_only_chars "The quick brown fox jumps".toList
      = "the quick brown fox jumps".toList := by decide

/-!
Rational arithmetic built from the kernel-computable primitives `mkRat`,
`Rat.divInt` and `Rat.floor` (the `Field ℚ` operations are irreducible
and cannot be evaluated inside closed proofs).  Each helper is proved
equal to the standard operation it stands for.
-/

/-- `a * b` on ℚ, computably. -/
def ratMul (a b : ℚ) : ℚ := mkRat (a.num * b.num) (a.den * b.den)

/-- `a / b` on ℚ, computably. -/
def ratDiv (a b : ℚ) : ℚ := Rat.divInt (a.num * b.den) (a.den * b.num)

/-- `a - b` on ℚ, computably. -/
def ratSub (a b : ℚ) : ℚ :=
  Rat.divInt (a.num * b.den - b.num * a.den) (a.den * b.den)

/-- `⌊q⌋`, computably. -/
def ratFloor (q : ℚ) : ℤ := Rat.floor q

/-- `⌈q⌉`, computably. -/
def ratCeil (q : ℚ) : ℤ := -Rat.floor (Rat.neg q)

/-- The cast ℕ → ℚ, computably. -/
def ratOfNat (n : ℕ) : ℚ := mkRat n 1

/-- The cast ℤ → ℚ, computably. -/
def ratOfInt (z : ℤ) : ℚ := Rat.divInt z 1

theorem ratMul_eq (a b : ℚ) : ratMul a b = a * b := (Rat.mul_eq_mkRat a b).symm

theorem ratOfInt_eq (z : ℤ) : ratOfInt z = (z : ℚ) := by
  simp [ratOfInt, Rat.divInt_eq_div]

theorem ratOfNat_eq (n : ℕ) : ratOfNat n = (n : ℚ) := by
  simp [ratOfNat, Rat.mkRat_eq_divInt, Rat.divInt_eq_div]

theorem rat_num_eq_mul_den (a : ℚ) : (a.num : ℚ) = a * (a.den : ℚ) := by
  have h : ((a.den : ℚ)) ≠ 0 := by exact_mod_cast a.den_nz
  exact (div_eq_iff h).mp (Rat.num_div_den a)

theorem ratDiv_eq (a b : ℚ) : ratDiv a b = a / b := by
  unfold ratDiv
  rw [Rat.divInt_eq_div]
  rcases eq_or_ne b 0 with rfl | hb
  · norm_num
  · have had : ((a.den : ℚ)) ≠ 0 := by exact_mod_cast a.den_nz
    have hbd : ((b.den : ℚ)) ≠ 0 := by exact_mod_cast b.den_nz
    have hbn : ((b.num : ℚ)) ≠ 0 := by exact_mod_cast Rat.num_ne_zero.mpr hb
    push_cast
    rw [div_eq_div_iff (mul_ne_zero had hbn) hb, rat_num_eq_mul_den a,
      rat_num_eq_mul_den b]
    ring

theorem ratSub_eq (a b : ℚ) : ratSub a b = a - b := by
  unfold ratSub
  rw [Rat.divInt_eq_div]
  have had : ((a.den : ℚ)) ≠ 0 := by exact_mod_cast a.den_nz
  have hbd : ((b.den : ℚ)) ≠ 0 := by exact_mod_cast b.den_nz
  push_cast
  rw [div_eq_iff (mul_ne_zero had hbd), rat_num_eq_mul_den a, rat_num_eq_mul_den b]
  ring

theorem ratFloor_eq (q : ℚ) : ratFloor q = ⌊q⌋ := rfl

theorem ratNeg_eq (q : ℚ) : Rat.neg q = -q := rfl

theorem ratCeil_eq (q : ℚ) : ratCeil q = ⌈q⌉ := by
  show -Rat.floor (Rat.neg q) = ⌈q⌉
  rw [ratNeg_eq, show Rat.floor (-q) = ⌊-q⌋ from rfl, Int.floor_neg, neg_neg]

/-- Python `int(q)` applied to a float: truncation toward zero. -/
def pyInt (q : ℚ) : ℤ := if 0 ≤ q then ratFloor q else ratCeil q

theorem pyInt_eq (q : ℚ) : pyInt q = if 0 ≤ q then ⌊q⌋ else ⌈q⌉ := by
  unfold pyInt
  rw [ratFloor_eq, ratCeil_eq]

/-- Python `q % m` on numbers, for a positive modulus `m`:
`q - m * floor(q / m)`, always in `[0, m)`. -/
def pyMod (q m : ℚ) : ℚ :=
  ratSub q (ratMul m (ratOfInt (ratFloor (ratDiv q m))))

theorem pyMod_eq (q m : ℚ) : pyMod q m = q - m * (⌊q / m⌋ : ℤ) := by
  unfold pyMod
  rw [ratSub_eq, ratMul_eq, ratOfInt_eq, ratFloor_eq, ratDiv_eq]

/-- Python truthiness of a numeric strength value (`if flags[pos]`). -/
def truthy (q : ℚ) : Bool := q ≠ 0

/-- One read `flags[pos]` in the base list comprehension of
`get_num_per_technique`: `int(num_aug / num_methods) if flags[pos] else 0`.
`none` models the IndexError raised when `pos` is out of range. -/
def basePer (num_aug : ℚ) (flags : List ℚ) (pos : ℕ) : Option ℤ :=
  (flags.get? pos).map (fun f => if truthy f then pyInt (ratDiv num_aug 4) else 0)

/-- The random-retry remainder loop of `get_num_per_technique`:
`while remainder > 0: position = random.randint(0, 3); if flags[position]:
increment and decrement`.  `stream k` is the k-th `randint` draw; `fuel`
bounds the number of iterations, and `none` means the loop was still
running when the bound ran out (the loop has no other exit). -/
def distribLoop (flags : List ℚ) (stream : ℕ → Fin 4) :
    List ℤ → ℤ → ℕ → ℕ → Option (List ℤ)
  | counts, remainder, _, 0 =>
    if remainder ≤ 0 then some counts else none
  | counts, remainder, k, fuel + 1 =>
    if remainder ≤ 0 then some counts
    else
      let position := (stream k : ℕ)
      match flags.get? position with
      | none => none
      | some f =>
        if truthy f then
          distribLoop flags stream
            (counts.set position (counts.getD position 0 + 1))
            (remainder - 1) (k + 1) fuel
        else
          distribLoop flags stream counts remainder (k + 1) fuel

/-- `get_num_per_technique(num_aug, flags)`: an empty flags list is
replaced by `[1, 1, 1, 1]`; each of the four positions gets
`int(num_aug / 4)` if its flag is truthy and 0 otherwise; then
`ceil(num_aug % 4)` remainder units are distributed by the random-retry
loop. -/
def getNumPerTechnique (stream : ℕ → Fin 4) (fuel : ℕ) (num_aug : ℚ)
    (flags0 : List ℚ) : Option (List ℤ) :=
  let flags := if flags0 = [] then List.replicate 4 1 else flags0
  match (List.range 4).mapM (basePer num_aug flags) with
  | none => none
  | some counts => distribLoop flags stream counts (ratCeil (pyMod num_aug 4)) 0 fuel

/-- `get_num_per_technique(num_aug, flags)` never returns: for every draw
sequence and every iteration bound the remainder loop is still running.
This is the model of an infinite `while` loop. -/
def getNumDiverges (num_aug : ℚ) (flags : List ℚ) : Prop :=
  ∀ (stream : ℕ → Fin 4) (fuel : ℕ),
    getNumPerTechnique stream fuel num_aug flags = none

/-- Tokens (and sentences) are lists of characters. -/
abbrev Word := List Char

/-- `random_deletion(words, probability)`: keep each token when
`random.uniform(0, 1) > probability` (`uni k` is the k-th uniform draw);
if everything was dropped, return one token at index
`random.randint(0, len - 1)` (the draw is `pick`).  `none` models the
ValueError `randint(0, -1)` raises when `words` is empty. -/
def random_deletion (uni : ℕ → ℚ) (pick : ℕ) (words : List Word)
    (probability : ℚ) : Option (List Word) :=
  if words.length = 1 then some words
  else
    let new_words := (words.enum.filter (fun p => probability < uni p.1)).map Prod.snd
    if new_words.length = 0 then
      if words.length = 0 then none
      else some [words.getD (pick % words.length) []]
    else some new_words

/-- Retry loop of `swap_word`: redraw `random_idx_2` while it equals
`random_idx_1`; Python bails out after the counter passes 3, so exactly 3
draws can take effect (the fourth draw is consumed but never used). -/
def swapTry (pick : ℕ → ℕ) (l : List Word) (i1 k : ℕ) : ℕ → List Word
  | 0 => l
  | tries + 1 =>
    let i2 := pick k % l.length
    if i2 = i1 then swapTry pick l i1 (k + 1) tries
    else (l.set i1 (l.getD i2 [])).set i2 (l.getD i1 [])

/-- `swap_word(new_words)`: `pick 0` draws `random_idx_1`, subsequent
draws are the `random_idx_2` retries.  `none` models the ValueError of
`randint(0, -1)` on an empty list. -/
def swap_word (pick : ℕ → ℕ) (new_words : List Word) : Option (List Word) :=
  if new_words.length = 0 then none
  else
    let i1 := pick 0 % new_words.length
    some (swapTry pick new_words i1 1 3)

/-- `random_swap(words, n)`: apply `swap_word` n times; `pick i` is the
draw stream of iteration i. -/
def random_swap (pick : ℕ → ℕ → ℕ) (words : List Word) : ℕ → Option (List Word)
  | 0 => some words
  | n + 1 =>
    match random_swap pick words n with
    | none => none
    | some l => swap_word (pick n) l

/-- Replacement loop of `synonym_replacement`: walk the candidate list;
when a candidate has synonyms pick one (`choice k` indexes the k-th
`random.choice` draw) and substitute every occurrence; after every
candidate, stop as soon as `num_replaced >= n`. -/
def srLoop (synOr : Word → List Word) (choice : ℕ → ℕ) (n : ℤ) :
    List Word → List Word → ℤ → ℕ → List Word
  | [], new_words, _, _ => new_words
  | rw :: rest, new_words, num_replaced, k =>
    let syns := synOr rw
    if 1 ≤ syns.length then
      let new_words2 :=
        new_words.map (fun w => if w = rw then syns.getD (choice k % syns.length) [] else w)
      if n ≤ num_replaced + 1 then new_words2
      else srLoop synOr choice n rest new_words2 (num_replaced + 1) (k + 1)
    else
      if n ≤ num_replaced then new_words
      else srLoop synOr choice n rest new_words num_replaced (k + 1)

/-- `synonym_replacement(words, n, language)`.  `synOr` models the
`get_synonyms` wordnet lookup and `stop` the NLTK stop-word list (both
external lexical resources); `orderOr` models
`random.shuffle(list(set(...)))`, the arbitrary ordering of the
deduplicated non-stop-word candidates.  The result is rejoined with
single spaces and re-split, as in the source. -/
def synonym_replacement (stop : Word → Bool) (synOr : Word → List Word)
    (orderOr : List Word → List Word) (choice : ℕ → ℕ)
    (words : List Word) (n : ℤ) : List Word :=
  let random_word_list := orderOr ((words.filter (fun w => !stop w)).dedup)
  let new_words := srLoop synOr choice n random_word_list words 0 0
  List.splitOn ' ' (List.intercalate [' '] new_words)

/-- Search loop of `add_word`: draw a random token, look up its synonyms,
and retry; Python bails out when the counter reaches 10, so exactly 9
draws can take effect (the tenth draw is consumed but never used). -/
def addWordSearch (synOr : Word → List Word) (pickW : ℕ → ℕ)
    (words : List Word) (k : ℕ) : ℕ → Option Word
  | 0 => none
  | tries + 1 =>
    let rw := words.getD (pickW k % words.length) []
    match synOr rw with
    | [] => addWordSearch synOr pickW words (k + 1) tries
    | s :: _ => some s

/-- `add_word(new_words)`: on a successful search insert the first
synonym at index `random.randint(0, len - 1)` (the draw is `pickPos`);
on a failed search leave the list unchanged.  `none` models the
ValueError of `randint(0, -1)` on an empty list. -/
def add_word (synOr : Word → List Word) (pickW : ℕ → ℕ) (pickPos : ℕ)
    (new_words : List Word) : Option (List Word) :=
  if new_words.length = 0 then none
  else
    match addWordSearch synOr pickW new_words 0 9 with
    | none => some new_words
    | some syn => some (new_words.insertIdx (pickPos % new_words.length) syn)

/-- `random_insertion(words, n, language)`: apply `add_word` n times. -/
def random_insertion (synOr : Word → List Word) (pickW : ℕ → ℕ → ℕ)
    (pickPos : ℕ → ℕ) (words : List Word) : ℕ → Option (List Word)
  | 0 => some words
  | n + 1 =>
    match random_insertion synOr pickW pickPos words n with
    | none => none
    | some l => add_word synOr (pickW n) (pickPos n) l

/-- The external lexical resources consumed by the engine: the wordnet
synonym lookup and the stop-word list, both outside this repository. -/
structure Lex where
  synOr : Word → List Word
  stop : Word → Bool

/-- The random draws consumed by one `eda` call, one stream per draw
site; indices select the per-variant streams. -/
structure Rng where
  gnpStream : ℕ → Fin 4
  gnpFuel : ℕ
  srOrder : ℕ → List Word → List Word
  srChoice : ℕ → ℕ → ℕ
  riPickW : ℕ → ℕ → ℕ → ℕ
  riPickPos : ℕ → ℕ → ℕ
  rsPick : ℕ → ℕ → ℕ → ℕ
  rdUni : ℕ → ℕ → ℚ
  rdPick : ℕ → ℕ
  shuffleOr : List Word → List Word
  trimUni : ℕ → ℚ

/-- The operator phase of `eda`: run each enabled operator its allocated
number of times (`counts`), join each result with single spaces, and
re-clean every collected sentence with `get_only_chars`.  The blocks run
in source order: synonym replacement, insertion, swap, deletion. -/
def edaOps (lex : Lex) (rng : Rng) (words : List Word)
    (alpha_sr alpha_ri alpha_rs alpha_rd : ℚ) (counts : List ℤ) :
    Option (List Word) := do
  let num_words := words.length
  let srS ←
    if 0 < alpha_sr then
      let num_sr : ℤ := max 1 (pyInt (ratMul alpha_sr (ratOfNat num_words)))
      some ((List.range (counts.getD 0 0).toNat).map (fun i =>
        List.intercalate [' ']
          (synonym_replacement lex.stop lex.synOr (rng.srOrder i)
            (rng.srChoice i) words num_sr)))
    else some []
  let riS ←
    if 0 < alpha_ri then
      let num_ri : ℤ := max 1 (pyInt (ratMul alpha_ri (ratOfNat num_words)))
      (List.range (counts.getD 1 0).toNat).mapM (fun i =>
        (random_insertion lex.synOr (rng.riPickW i) (rng.riPickPos i)
          words num_ri.toNat).map (List.intercalate [' ']))
    else some []
  let rsS ←
    if 0 < alpha_rs then
      let num_rs : ℤ := max 1 (pyInt (ratMul alpha_rs (ratOfNat num_words)))
      (List.range (counts.getD 2 0).toNat).mapM (fun i =>
        (random_swap (rng.rsPick i) words num_rs.toNat).map
          (List.intercalate [' ']))
    else some []
  let rdS ←
    if 0 < alpha_rd then
      (List.range (counts.getD 3 0).toNat).mapM (fun i =>
        (random_deletion (rng.rdUni i) (rng.rdPick i) words
          alpha_rd).map (List.intercalate [' ']))
    else some []
  pure ((srS ++ riS ++ rsS ++ rdS).map get_only_chars)

/-- The trimming phase of `eda`: optionally shuffle the generated pool,
truncate when `num_aug >= 1` and more were generated than requested,
otherwise (for any `num_aug > 0`, matching the source guard whose
comment claims `0 < num_aug < 1`) keep each variant while
`random.uniform(0,1) < num_aug / len(pool)` — dividing by zero
(`none`) when the pool is empty — and finally prepend the original
sentence. -/
def edaFinish (rng : Rng) (sentence : Word) (num_aug : ℚ) (randomize : Bool)
    (augmented : List Word) : Option (List Word) :=
  let aug2 := if randomize then rng.shuffleOr augmented else augmented
  if 1 ≤ num_aug ∧ pyInt num_aug < (aug2.length : ℤ) then
    some (sentence :: aug2.take (pyInt num_aug).toNat)
  else if 0 < num_aug then
    if aug2.length = 0 then none
    else
      let keep_prob := ratDiv num_aug (ratOfNat aug2.length)
      some (sentence ::
        (aug2.enum.filter (fun p => rng.trimUni p.1 < keep_prob)).map Prod.snd)
  else some (sentence :: aug2)

/-- `eda(sentence, language, num_aug, alpha_sr, alpha_ri, alpha_rs,
alpha_rd, randomize)`: normalize and tokenize; short-circuit on an empty
token list; allocate per-technique counts; run the operator phase; trim
and prepend the original via the finishing phase.  `none` models a run
that raises (ZeroDivisionError on an empty generated pool, an IndexError
inside the allocation) or whose allocation loop outruns the fuel
bound. -/
def eda (lex : Lex) (rng : Rng) (sentence : Word) (num_aug : ℚ)
    (alpha_sr alpha_ri alpha_rs alpha_rd : ℚ) (randomize : Bool) :
    Option (List Word) :=
  let clean_sentence := get_only_chars sentence
  let words := (List.splitOn ' ' clean_sentence).filter (fun w => w ≠ [])
  let num_words := words.length
  if num_words = 0 then some [sentence]
  else
    match getNumPerTechnique rng.gnpStream rng.gnpFuel num_aug
        [alpha_sr, alpha_ri, alpha_rs, alpha_rd] with
    | none => none
    | some counts =>
      match edaOps lex rng words alpha_sr alpha_ri alpha_rs alpha_rd counts with
      | none => none
      | some augmented => edaFinish rng sentence num_aug randomize augmented

/-- A fixed draw bundle used to evaluate concrete runs. -/
def rng0 : Rng where
  gnpStream := fun _ => 2
  gnpFuel := 8
  srOrder := fun _ => id
  srChoice := fun _ _ => 0
  riPickW := fun _ _ _ => 0
  riPickPos := fun _ _ => 0
  rsPick := fun _ _ _ => 0
  rdUni := fun _ _ => 0
  rdPick := fun _ => 0
  shuffleOr := id
  trimUni := fun _ => 0

/-- A fixed lexical resource with no synonyms and no stop words. -/
def lex0 : Lex where
  synOr := fun _ => []
  stop := fun _ => false

/-! ### List helpers -/

theorem getD_set_self (l : List ℤ) (i : ℕ) (a : ℤ) (h : i < l.length) :
    (l.set i a).getD i 0 = a := by
  simp [List.getD_eq_getElem?_getD, List.getElem?_set_self', h]

theorem getD_set_ne (l : List ℤ) (i j : ℕ) (a : ℤ) (h : i ≠ j) :
    (l.set i a).getD j 0 = l.getD j 0 := by
  simp [List.getD_eq_getElem?_getD, List.getElem?_set_ne h]

theorem set_getD_self (l : List ℤ) (i : ℕ) (h : i < l.length) :
    l.set i (l.getD i 0) = l := by
  apply List.ext_getElem?
  intro n
  rcases eq_or_ne n i with rfl | hne
  · simp [List.getElem?_set_self', h, List.getD_eq_getElem?_getD,
      List.getElem?_eq_getElem h]
  · simp [List.getElem?_set_ne (Ne.symm hne)]

theorem sum_set_getD (a : ℤ) (l : List ℤ) : ∀ (i : ℕ), i < l.length →
    (l.set i a).sum = l.sum - l.getD i 0 + a := by
  induction l with
  | nil => intro i h; simp at h
  | cons c t ih =>
    intro i h
    cases i with
    | zero => simp [List.sum_cons]; ring
    | succ i =>
      have hi := ih i (by simpa using h)
      simp only [List.set_cons_succ, List.sum_cons, List.getD_cons_succ, hi]
      ring

theorem count_set_key {α : Type} [DecidableEq α] (x a : α) (l : List α) :
    ∀ (i : ℕ) (h : i < l.length),
      List.count x (l.set i a) + List.count x [l.get ⟨i, h⟩]
        = List.count x l + List.count x [a] := by
  induction l with
  | nil => intro i h; simp at h
  | cons c t ih =>
    intro i h
    cases i with
    | zero =>
      simp only [List.set_cons_zero, List.count_cons, List.count_nil, List.get]
      split_ifs <;> omega
    | succ i =>
      have hi := ih i (by simpa using h)
      simp only [List.set_cons_succ, List.count_cons, List.count_nil, List.get] at hi ⊢
      split_ifs at hi ⊢ <;> omega

theorem perm_set_swap {α : Type} [DecidableEq α] (l : List α) (i j : ℕ)
    (hi : i < l.length) (hj : j < l.length) (hne : i ≠ j) :
    ((l.set i (l.get ⟨j, hj⟩)).set j (l.get ⟨i, hi⟩)).Perm l := by
  rw [List.perm_iff_count]
  intro x
  have hj2 : j < (l.set i (l.get ⟨j, hj⟩)).length := by simpa using hj
  have h1 := count_set_key x (l.get ⟨i, hi⟩) (l.set i (l.get ⟨j, hj⟩)) j hj2
  have h2 := count_set_key x (l.get ⟨j, hj⟩) l i hi
  have hget : (l.set i (l.get ⟨j, hj⟩)).get ⟨j, hj2⟩ = l.get ⟨j, hj⟩ := by
    simp only [List.get_eq_getElem]
    exact List.getElem_set_ne hne _
  rw [hget] at h1
  omega

/-! ### Allocation-policy lemmas -/

/-- On every terminating run the remainder loop adds exactly the
remainder to the total and preserves the length. -/
theorem distribLoop_sum (flags : List ℚ) (stream : ℕ → Fin 4) :
    ∀ (fuel : ℕ) (counts : List ℤ) (r : ℤ) (k : ℕ) (l : List ℤ),
      4 ≤ counts.length →
      distribLoop flags stream counts r k fuel = some l → 0 ≤ r →
      l.sum = counts.sum + r ∧ l.length = counts.length := by
  intro fuel
  induction fuel with
  | zero =>
    intro counts r k l _ h hr
    by_cases hr0 : r ≤ 0
    · simp only [distribLoop, if_pos hr0, Option.some.injEq] at h
      subst h
      constructor
      · omega
      · rfl
    · simp [distribLoop, hr0] at h
  | succ fuel ih =>
    intro counts r k l hlen h hr
    by_cases hr0 : r ≤ 0
    · simp only [distribLoop, if_pos hr0, Option.some.injEq] at h
      subst h
      constructor
      · omega
      · rfl
    · simp only [distribLoop, if_neg hr0] at h
      have hpos : ((stream k : ℕ)) < counts.length :=
        lt_of_lt_of_le (stream k).isLt hlen
      cases hf : flags.get? ((stream k : ℕ)) with
      | none => rw [hf] at h; exact absurd h (by simp)
      | some f =>
        rw [hf] at h
        simp only [] at h
        by_cases ht : truthy f
        · rw [if_pos ht] at h
          have := ih (counts.set (stream k) (counts.getD (stream k) 0 + 1))
            (r - 1) (k + 1) l (by simpa using hlen) h (by omega)
          rw [sum_set_getD _ _ _ hpos, List.length_set] at this
          constructor
          · omega
          · exact this.2
        · rw [if_neg ht] at h
          exact ih counts r (k + 1) l hlen h hr

/-- The remainder loop never decreases a count. -/
theorem distribLoop_getD_mono (flags : List ℚ) (stream : ℕ → Fin 4) :
    ∀ (fuel : ℕ) (counts : List ℤ) (r : ℤ) (k : ℕ) (l : List ℤ),
      distribLoop flags stream counts r k fuel = some l →
      ∀ i : ℕ, counts.getD i 0 ≤ l.getD i 0 := by
  intro fuel
  induction fuel with
  | zero =>
    intro counts r k l h i
    by_cases hr0 : r ≤ 0
    · simp only [distribLoop, if_pos hr0, Option.some.injEq] at h
      subst h; exact le_refl _
    · simp [distribLoop, hr0] at h
  | succ fuel ih =>
    intro counts r k l h i
    by_cases hr0 : r ≤ 0
    · simp only [distribLoop, if_pos hr0, Option.some.injEq] at h
      subst h; exact le_refl _
    · simp only [distribLoop, if_neg hr0] at h
      cases hf : flags.get? ((stream k : ℕ)) with
      | none => rw [hf] at h; exact absurd h (by simp)
      | some f =>
        rw [hf] at h
        simp only [] at h
        by_cases ht : truthy f
        · rw [if_pos ht] at h
          refine le_trans ?_ (ih _ _ _ _ h i)
          rcases eq_or_ne ((stream k : ℕ)) i with rfl | hne
          · by_cases hik : ((stream k : ℕ)) < counts.length
            · rw [getD_set_self _ _ _ hik]; omega
            · rw [List.set_eq_of_length_le (by omega)]
          · rw [getD_set_ne _ _ _ _ hne]
        · rw [if_neg ht] at h
          exact ih _ _ _ _ h i

/-- The remainder loop never touches a position whose flag is falsy (or
out of range). -/
theorem distribLoop_getD_falsy (flags : List ℚ) (stream : ℕ → Fin 4) :
    ∀ (fuel : ℕ) (counts : List ℤ) (r : ℤ) (k : ℕ) (l : List ℤ),
      distribLoop flags stream counts r k fuel = some l →
      ∀ i : ℕ, (∀ f, flags.get? i = some f → truthy f = false) →
      l.getD i 0 = counts.getD i 0 := by
  intro fuel
  induction fuel with
  | zero =>
    intro counts r k l h i _
    by_cases hr0 : r ≤ 0
    · simp only [distribLoop, if_pos hr0, Option.some.injEq] at h
      subst h; rfl
    · simp [distribLoop, hr0] at h
  | succ fuel ih =>
    intro counts r k l h i hfals
    by_cases hr0 : r ≤ 0
    · simp only [distribLoop, if_pos hr0, Option.some.injEq] at h
      subst h; rfl
    · simp only [distribLoop, if_neg hr0] at h
      cases hf : flags.get? ((stream k : ℕ)) with
      | none => rw [hf] at h; exact absurd h (by simp)
      | some f =>
        rw [hf] at h
        simp only [] at h
        by_cases ht : truthy f
        · rw [if_pos ht] at h
          have hne : ((stream k : ℕ)) ≠ i := by
            intro he
            rw [he] at hf
            rw [hfals f hf] at ht
            exact absurd ht (by simp)
          rw [ih _ _ _ _ h i hfals, getD_set_ne _ _ _ _ hne]
        · rw [if_neg ht] at h
          exact ih _ _ _ _ h i hfals

/-- When every one of the four drawable positions has a falsy flag and
the remainder is positive, the loop never finishes: the model of the
infinite retry loop. -/
theorem distribLoop_falsy_none (flags : List ℚ)
    (h4 : ∀ j : Fin 4, ∀ f, flags.get? ((j : ℕ)) = some f → truthy f = false)
    (r : ℤ) (hr : 0 < r) :
    ∀ (fuel : ℕ) (stream : ℕ → Fin 4) (counts : List ℤ) (k : ℕ),
      distribLoop flags stream counts r k fuel = none := by
  intro fuel
  induction fuel with
  | zero =>
    intro stream counts k
    simp [distribLoop]
    omega
  | succ fuel ih =>
    intro stream counts k
    simp only [distribLoop, if_neg (by omega : ¬ r ≤ 0)]
    cases hf : flags.get? ((stream k : ℕ)) with
    | none => rfl
    | some f =>
      simp only []
      rw [h4 (stream k) f hf]
      simp only [Bool.false_eq_true, if_false]
      exact ih stream counts (k + 1)

/-! ### Arithmetic facts about `pyInt` and `pyMod` -/

theorem pyInt_nonneg (q : ℚ) (h : -1 < q) : 0 ≤ pyInt q := by
  rw [pyInt_eq]
  split_ifs with h0
  · exact Int.floor_nonneg.mpr h0
  · have : (-1 : ℤ) < ⌈q⌉ := by
      rw [Int.lt_ceil]
      exact_mod_cast h
    omega

theorem pyMod_eq_fract (q m : ℚ) (hm : m ≠ 0) :
    pyMod q m = m * Int.fract (q / m) := by
  rw [pyMod_eq, Int.fract]
  field_simp

theorem pyMod_nonneg (q m : ℚ) (hm : 0 < m) : 0 ≤ pyMod q m := by
  rw [pyMod_eq_fract q m (ne_of_gt hm)]
  exact mul_nonneg (le_of_lt hm) (Int.fract_nonneg _)

theorem remainder_nonneg (q : ℚ) : 0 ≤ ratCeil (pyMod q 4) := by
  rw [ratCeil_eq]
  exact Int.ceil_nonneg (pyMod_nonneg q 4 (by norm_num))

/-- For an integer argument, `int(t / 4)` is the flooring division. -/
theorem pyInt_intCast_div_four (t : ℤ) (ht : 0 ≤ t) :
    pyInt (ratDiv (t : ℚ) 4) = t / 4 := by
  rw [ratDiv_eq, pyInt_eq, if_pos (by positivity)]
  have h4 : ((4 : ℚ)) = ((4 : ℕ) : ℚ) := by norm_num
  rw [h4, Rat.floor_intCast_div_natCast]
  norm_num

/-- For an integer argument, `ceil(t % 4)` is the integer remainder. -/
theorem remainder_intCast_four (t : ℤ) : ratCeil (pyMod (t : ℚ) 4) = t % 4 := by
  rw [ratCeil_eq, pyMod_eq]
  have h4 : ((4 : ℚ)) = ((4 : ℕ) : ℚ) := by norm_num
  rw [h4, Rat.floor_intCast_div_natCast]
  have : (t : ℚ) - ((4 : ℕ) : ℚ) * ((t / ((4 : ℕ) : ℤ) : ℤ) : ℚ)
      = (((t - 4 * (t / 4) : ℤ)) : ℚ) := by
    push_cast
    ring
  rw [this, Int.ceil_intCast]
  omega

/-- With every flag enabled and a constant draw, the remainder loop puts
the whole remainder on the drawn position. -/
theorem distribLoop_replicate_const (i : Fin 4) :
    ∀ (n : ℕ) (counts : List ℤ) (k : ℕ), ((i : ℕ)) < counts.length →
      distribLoop (List.replicate 4 1) (fun _ => i) counts ((n : ℕ) : ℤ) k n
        = some (counts.set i (counts.getD ((i : ℕ)) 0 + n)) := by
  intro n
  induction n with
  | zero =>
    intro counts k hlen
    simp only [distribLoop, Nat.cast_zero, le_refl, if_pos, add_zero]
    rw [set_getD_self _ _ hlen]
  | succ n ih =>
    intro counts k hlen
    have hr : ¬ (((n + 1 : ℕ) : ℤ) ≤ 0) := by push_cast; omega
    have hget : (List.replicate 4 (1 : ℚ)).get? ((i : ℕ)) = some 1 := by
      rw [List.get?_eq_getElem?, List.getElem?_replicate, if_pos i.isLt]
    simp only [distribLoop, if_neg hr, hget]
    rw [if_pos (by decide : truthy (1 : ℚ) = true)]
    have hlen2 : ((i : ℕ)) <
        (counts.set ((i : ℕ)) (counts.getD ((i : ℕ)) 0 + 1)).length := by
      simpa using hlen
    have harith : ((n + 1 : ℕ) : ℤ) - 1 = ((n : ℕ) : ℤ) := by push_cast; ring
    rw [harith, ih _ (k + 1) hlen2]
    rw [getD_set_self _ _ _ hlen, List.set_set]
    have hval : counts.getD ((i : ℕ)) 0 + 1 + ((n : ℕ) : ℤ)
        = counts.getD ((i : ℕ)) 0 + ((n + 1 : ℕ) : ℤ) := by push_cast; ring
    rw [hval]

/-- A nonpositive remainder exits the loop at once, whatever the fuel. -/
theorem distribLoop_of_nonpos (flags : List ℚ) (stream : ℕ → Fin 4)
    (counts : List ℤ) (r : ℤ) (k : ℕ) (hr : r ≤ 0) :
    ∀ fuel, distribLoop flags stream counts r k fuel = some counts := by
  intro fuel
  cases fuel <;> simp [distribLoop, hr]

/-- Position `i` of the flag list holds a truthy strength. -/
def truthyAt (flags : List ℚ) (i : ℕ) : Prop :=
  ∃ f, flags.get? i = some f ∧ truthy f = true

theorem distribLoop_step_hit (flags : List ℚ) (stream : ℕ → Fin 4)
    (r : ℤ) (hr : 0 < r) (k : ℕ) (counts : List ℤ)
    (ht : truthyAt flags ((stream k : ℕ)))
    (next : ∃ fuel l, distribLoop flags stream
      (counts.set ((stream k : ℕ)) (counts.getD ((stream k : ℕ)) 0 + 1))
      (r - 1) (k + 1) fuel = some l) :
    ∃ fuel l, distribLoop flags stream counts r k fuel = some l := by
  obtain ⟨f, hf, htr⟩ := ht
  obtain ⟨F, l, hF⟩ := next
  refine ⟨F + 1, l, ?_⟩
  simp only [distribLoop, if_neg (by omega : ¬ r ≤ 0), hf]
  rw [if_pos htr]
  exact hF

theorem distribLoop_step_skip (flags : List ℚ) (stream : ℕ → Fin 4)
    (r : ℤ) (hr : 0 < r) (k : ℕ) (counts : List ℤ) (f : ℚ)
    (hf : flags.get? ((stream k : ℕ)) = some f) (hfalse : truthy f = false)
    (next : ∃ fuel l, distribLoop flags stream counts r (k + 1) fuel = some l) :
    ∃ fuel l, distribLoop flags stream counts r k fuel = some l := by
  obtain ⟨F, l, hF⟩ := next
  refine ⟨F + 1, l, ?_⟩
  simp only [distribLoop, if_neg (by omega : ¬ r ≤ 0), hf, hfalse,
    Bool.false_eq_true, if_false]
  exact hF

theorem distribLoop_reach (flags : List ℚ) (stream : ℕ → Fin 4)
    (hlen : 4 ≤ flags.length) (r : ℤ) (hr : 0 < r)
    (ihr : ∀ (k : ℕ) (counts : List ℤ), ∃ fuel l,
        distribLoop flags stream counts (r - 1) k fuel = some l) :
    ∀ (d k : ℕ), truthyAt flags ((stream (k + d) : ℕ)) → ∀ counts : List ℤ,
      ∃ fuel l, distribLoop flags stream counts r k fuel = some l := by
  intro d
  induction d with
  | zero =>
    intro k ht counts
    rw [Nat.add_zero] at ht
    exact distribLoop_step_hit flags stream r hr k counts ht (ihr _ _)
  | succ d ihd =>
    intro k ht counts
    by_cases htk : truthyAt flags ((stream k : ℕ))
    · exact distribLoop_step_hit flags stream r hr k counts htk (ihr _ _)
    · have hk4 : ((stream k : ℕ)) < flags.length :=
        lt_of_lt_of_le (stream k).isLt hlen
      obtain ⟨f, hf⟩ : ∃ f, flags.get? ((stream k : ℕ)) = some f := by
        rw [List.get?_eq_getElem?]
        exact ⟨_, List.getElem?_eq_getElem hk4⟩
      have hfalse : truthy f = false := by
        by_contra hc
        refine htk ⟨f, hf, ?_⟩
        revert hc
        cases truthy f <;> simp
      have ht2 : truthyAt flags ((stream ((k + 1) + d) : ℕ)) := by
        have he : (k + 1) + d = k + (d + 1) := by omega
        rwa [he]
      exact distribLoop_step_skip flags stream r hr k counts f hf hfalse
        (ihd (k + 1) ht2 counts)

/-- If the draw stream keeps hitting enabled positions, the remainder
loop finishes for every starting state. -/
theorem distribLoop_total (flags : List ℚ) (stream : ℕ → Fin 4)
    (hlen : 4 ≤ flags.length)
    (hfair : ∀ n : ℕ, ∃ m, n ≤ m ∧ truthyAt flags ((stream m : ℕ))) :
    ∀ (n : ℕ) (r : ℤ), r ≤ n → ∀ (k : ℕ) (counts : List ℤ),
      ∃ fuel l, distribLoop flags stream counts r k fuel = some l := by
  intro n
  induction n with
  | zero =>
    intro r hr k counts
    exact ⟨0, counts, distribLoop_of_nonpos _ _ _ _ _ (by omega) 0⟩
  | succ n ih =>
    intro r hr k counts
    by_cases hr0 : r ≤ 0
    · exact ⟨0, counts, distribLoop_of_nonpos _ _ _ _ _ hr0 0⟩
    · obtain ⟨m, hkm, hm⟩ := hfair k
      have ihr : ∀ (k2 : ℕ) (c2 : List ℤ), ∃ fuel l,
          distribLoop flags stream c2 (r - 1) k2 fuel = some l :=
        fun k2 c2 => ih (r - 1) (by omega) k2 c2
      have hm2 : truthyAt flags ((stream (k + (m - k)) : ℕ)) := by
        have he : k + (m - k) = m := by omega
        rwa [he]
      exact distribLoop_reach flags stream hlen r (by omega) ihr (m - k) k hm2 counts

/-- `get_num_per_technique` on an explicit four-or-more flag list reduces
to the remainder loop applied to the base allocation. -/
theorem getNum_cons_eq (stream : ℕ → Fin 4) (fuel : ℕ) (q : ℚ)
    (f0 f1 f2 f3 : ℚ) (rest : List ℚ) :
    getNumPerTechnique stream fuel q (f0 :: f1 :: f2 :: f3 :: rest)
      = distribLoop (f0 :: f1 :: f2 :: f3 :: rest) stream
          [if truthy f0 then pyInt (ratDiv q 4) else 0,
           if truthy f1 then pyInt (ratDiv q 4) else 0,
           if truthy f2 then pyInt (ratDiv q 4) else 0,
           if truthy f3 then pyInt (ratDiv q 4) else 0]
          (ratCeil (pyMod q 4)) 0 fuel := rfl

/-- When the four drawable flags are all falsy and the remainder is
positive, `get_num_per_technique` never returns. -/
theorem getNumDiverges_four (q : ℚ) (f0 f1 f2 f3 : ℚ) (rest : List ℚ)
    (h0 : truthy f0 = false) (h1 : truthy f1 = false)
    (h2 : truthy f2 = false) (h3 : truthy f3 = false)
    (hr : 0 < ratCeil (pyMod q 4)) :
    getNumDiverges q (f0 :: f1 :: f2 :: f3 :: rest) := by
  intro stream fuel
  rw [getNum_cons_eq]
  refine distribLoop_falsy_none _ ?_ _ hr fuel stream _ 0
  intro j f hf
  fin_cases j <;> simp only [List.get?] at hf <;>
    (injection hf with hf2; rw [← hf2]; assumption)

/-! ### Claims about the allocation policy -/

/-- C1 counterexample: target_count 4 with exactly one enabled flag is
allocated counts `[1, 0, 0, 0]`, whose sum is 1, not 4. -/
theorem c1_allocation_sum_counterexample :
    getNumPerTechnique (fun _ => 0) 1 4 [1, 0, 0, 0] = some [1, 0, 0, 0]
      ∧ ([1, 0, 0, 0] : List ℤ).sum ≠ 4 := by
  constructor
  · decide
  · decide

/-- C1 (amended): for an integer target_count ≥ 1 and four strengths with
at least one nonzero, every terminating run of `get_num_per_technique`
returns four counts whose sum is
(number of enabled flags) · (target_count / 4) + (target_count mod 4);
this equals target_count exactly when all four flags are enabled or the
base share target_count / 4 is zero. -/
theorem c1_allocation_sum_formula (t : ℤ) (ht : 1 ≤ t)
    (f0 f1 f2 f3 : ℚ)
    (_hen : truthy f0 = true ∨ truthy f1 = true ∨ truthy f2 = true ∨
      truthy f3 = true)
    (stream : ℕ → Fin 4) (fuel : ℕ) (l : List ℤ)
    (h : getNumPerTechnique stream fuel ((t : ℤ) : ℚ) [f0, f1, f2, f3] = some l) :
    l.length = 4 ∧
    l.sum = (List.countP truthy [f0, f1, f2, f3] : ℤ) * (t / 4) + t % 4 := by
  rw [getNum_cons_eq] at h
  have hsum := distribLoop_sum _ stream fuel _ _ 0 l (by simp) h (remainder_nonneg _)
  refine ⟨by rw [hsum.2]; rfl, ?_⟩
  rw [hsum.1, remainder_intCast_four, ← pyInt_intCast_div_four t (by omega)]
  simp only [List.sum_cons, List.sum_nil, List.countP_cons, List.countP_nil]
  split_ifs <;> push_cast <;> ring

theorem c1_allocation_sum_formula_witness :
    ([2, 1, 1, 1] : List ℤ).length = 4 ∧
    ([2, 1, 1, 1] : List ℤ).sum
      = (List.countP truthy [1, 1, 1, 1] : ℤ) * (5 / 4) + 5 % 4 :=
  c1_allocation_sum_formula 5 (by decide) 1 1 1 1 (Or.inl (by decide))
    (fun _ => 0) 8 [2, 1, 1, 1] (by decide)

/-- C2 (code bug): with all four alphas zero the engine never returns the
promised one-element list.  For num_aug = 4 the generated pool is empty
and the trimming branch divides `num_aug` by the pool length
(ZeroDivisionError, modelled as `none`) — the branch fires because its
guard is `num_aug > 0` although its comment claims `0 < num_aug < 1`;
for num_aug = 9 (the default) the allocation remainder loop never
terminates, so `eda` never returns at all. -/
theorem c2_zero_alphas_failure :
    eda lex0 rng0 ("hello".toList) 4 0 0 0 0 false = none ∧
    getNumDiverges 9 [0, 0, 0, 0] ∧
    (∀ (lex : Lex) (rng : Rng),
      eda lex rng ("hello".toList) 9 0 0 0 0 false = none) := by
  refine ⟨by decide, ?_, ?_⟩
  · exact getNumDiverges_four 9 0 0 0 0 [] (by decide) (by decide) (by decide)
      (by decide) (by decide)
  · intro lex rng
    have hdiv := getNumDiverges_four 9 0 0 0 0 [] (by decide) (by decide)
      (by decide) (by decide) (by decide) rng.gnpStream rng.gnpFuel
    simp only [eda]
    rw [if_neg (by decide), hdiv]

/-- C8 counterexample: target_count −4 with all flags enabled returns
four counts of −1, which are negative. -/
theorem c8_nonneg_counterexample :
    getNumPerTechnique (fun _ => 0) 1 (-4) [1, 1, 1, 1] = some [-1, -1, -1, -1]
      ∧ ¬ (0 ≤ (-1 : ℤ)) := by
  constructor
  · decide
  · decide

/-- C8 (amended): for every target_count greater than −4 (so in
particular every non-negative target_count) and every non-empty flags
list, whenever `get_num_per_technique` returns, every count is
non-negative and every position holding a falsy (zero) flag gets a count
of exactly 0. -/
theorem c8_nonneg_disabled (q : ℚ) (hq : -4 < q) (flags : List ℚ)
    (hne : flags ≠ []) (stream : ℕ → Fin 4) (fuel : ℕ) (l : List ℤ)
    (h : getNumPerTechnique stream fuel q flags = some l) :
    (∀ i : ℕ, 0 ≤ l.getD i 0) ∧
    (∀ i : ℕ, ∀ f, flags.get? i = some f → truthy f = false →
      l.getD i 0 = 0) := by
  have hb : 0 ≤ pyInt (ratDiv q 4) := by
    apply pyInt_nonneg
    rw [ratDiv_eq, lt_div_iff₀ (by norm_num : (0 : ℚ) < 4)]
    linarith
  rcases flags with _ | ⟨f0, flags⟩
  · exact absurd rfl hne
  rcases flags with _ | ⟨f1, flags⟩
  · rw [show getNumPerTechnique stream fuel q [f0] = none from rfl] at h
    exact absurd h (by simp)
  rcases flags with _ | ⟨f2, flags⟩
  · rw [show getNumPerTechnique stream fuel q [f0, f1] = none from rfl] at h
    exact absurd h (by simp)
  rcases flags with _ | ⟨f3, rest⟩
  · rw [show getNumPerTechnique stream fuel q [f0, f1, f2] = none from rfl] at h
    exact absurd h (by simp)
  rw [getNum_cons_eq] at h
  have hlen4 : l.length = 4 := by
    rw [(distribLoop_sum _ stream fuel _ _ 0 l (by simp) h
      (remainder_nonneg _)).2]
    rfl
  constructor
  · intro i
    by_cases hi : i < 4
    · refine le_trans ?_ (distribLoop_getD_mono _ stream fuel _ _ 0 l h i)
      interval_cases i <;>
        simp only [List.getD_cons_zero, List.getD_cons_succ] <;>
        split_ifs <;> simp [hb]
    · rw [List.getD_eq_default]
      omega
  · intro i f hf htf
    have hfals : ∀ g, (f0 :: f1 :: f2 :: f3 :: rest).get? i = some g →
        truthy g = false := by
      intro g hg
      rw [hf] at hg
      injection hg with hg2
      rw [← hg2]
      exact htf
    rw [distribLoop_getD_falsy _ stream fuel _ _ 0 l h i hfals]
    by_cases hi : i < 4
    · interval_cases i <;> simp only [List.get?] at hf <;>
        injection hf with hf2 <;>
        simp [List.getD_cons_zero, List.getD_cons_succ, hf2, htf]
    · rw [List.getD_eq_default]
      simp only [List.length_cons, List.length_nil]
      omega

theorem c8_nonneg_disabled_witness :
    0 ≤ ([0, 0, 0, 0] : List ℤ).getD 0 0 ∧
    ([0, 0, 0, 0] : List ℤ).getD 1 0 = 0 :=
  ⟨(c8_nonneg_disabled 0 (by decide) [1, 0, 0, 0] (by decide) (fun _ => 0) 1
      [0, 0, 0, 0] (by decide)).1 0,
   (c8_nonneg_disabled 0 (by decide) [1, 0, 0, 0] (by decide) (fun _ => 0) 1
      [0, 0, 0, 0] (by decide)).2 1 0 (by decide) (by decide)⟩

/-- C9 counterexample: the flag list [0, 0, 0, 0, 1] contains a nonzero
entry, but the loop draws only indices 0–3, whose flags are all zero:
with target_count 1 the remainder loop never terminates. -/
theorem c9_termination_counterexample : getNumDiverges 1 [0, 0, 0, 0, 1] :=
  getNumDiverges_four 1 0 0 0 0 [1] (by decide) (by decide) (by decide)
    (by decide) (by decide)

/-- C9 (amended): when at least one of the first four flags is nonzero
and the random draw sequence keeps hitting enabled positions (an event of
probability 1 for the uniform generator), the remainder loop of
`get_num_per_technique` terminates, for every target_count. -/
theorem c9_allocation_total (q : ℚ) (f0 f1 f2 f3 : ℚ) (rest : List ℚ)
    (stream : ℕ → Fin 4)
    (hfair : ∀ n : ℕ, ∃ m, n ≤ m ∧
      truthyAt (f0 :: f1 :: f2 :: f3 :: rest) ((stream m : ℕ))) :
    ∃ fuel l,
      getNumPerTechnique stream fuel q (f0 :: f1 :: f2 :: f3 :: rest) = some l := by
  obtain ⟨fuel, l, hl⟩ := distribLoop_total _ stream (by simp) hfair
    (ratCeil (pyMod q 4)).toNat (ratCeil (pyMod q 4)) (Int.self_le_toNat _) 0
    [if truthy f0 then pyInt (ratDiv q 4) else 0,
     if truthy f1 then pyInt (ratDiv q 4) else 0,
     if truthy f2 then pyInt (ratDiv q 4) else 0,
     if truthy f3 then pyInt (ratDiv q 4) else 0]
  refine ⟨fuel, l, ?_⟩
  rw [getNum_cons_eq]
  exact hl

theorem c9_allocation_total_witness :
    ∃ fuel l, getNumPerTechnique (fun _ => 0) fuel 1 [1, 0, 0, 0] = some l :=
  c9_allocation_total 1 1 0 0 0 [] (fun _ => 0)
    (fun n => ⟨n, le_refl n, ⟨1, rfl, rfl⟩⟩)

/-- C10: with an empty flags list every operator is treated as enabled:
each of the four positions gets the base share int(num_aug/4), and a
draw stream concentrated on an arbitrary index i places the whole
remainder there, so no index is forced to zero. -/
theorem c10_empty_flags (q : ℚ) (i : Fin 4) :
    getNumPerTechnique (fun _ => i) ((ratCeil (pyMod q 4)).toNat) q []
      = some ((List.replicate 4 (pyInt (ratDiv q 4))).set ((i : ℕ))
          (pyInt (ratDiv q 4) + ratCeil (pyMod q 4))) := by
  have hrep : getNumPerTechnique (fun _ => i) ((ratCeil (pyMod q 4)).toNat) q []
      = distribLoop (List.replicate 4 1) (fun _ => i)
          (List.replicate 4 (pyInt (ratDiv q 4))) (ratCeil (pyMod q 4)) 0
          ((ratCeil (pyMod q 4)).toNat) := rfl
  rw [hrep]
  have hr := remainder_nonneg q
  obtain ⟨n, hn⟩ : ∃ n : ℕ, ratCeil (pyMod q 4) = (n : ℤ) :=
    ⟨(ratCeil (pyMod q 4)).toNat, (Int.toNat_of_nonneg hr).symm⟩
  rw [hn, Int.toNat_natCast,
    distribLoop_replicate_const i _ _ 0 (by simp [i.isLt])]
  have hgd : (List.replicate 4 (pyInt (ratDiv q 4))).getD ((i : ℕ)) 0
      = pyInt (ratDiv q 4) := by
    rw [List.getD_eq_getElem?_getD, List.getElem?_replicate, if_pos i.isLt]
    rfl
  rw [hgd]

/-! ### Claims about the perturbation operators -/

/-- C4: `random_deletion` on a nonempty token list returns a list of
between 1 and `len(words)` tokens drawn from the input; a 1-token list
comes back unchanged; and when every keep-draw fails the result is the
single input token at the fallback draw index. -/
theorem c4_random_deletion_bounds (uni : ℕ → ℚ) (pick : ℕ)
    (words : List Word) (p : ℚ) (hne : words ≠ []) :
    ∃ l, random_deletion uni pick words p = some l ∧
      1 ≤ l.length ∧ l.length ≤ words.length ∧
      (∀ w ∈ l, w ∈ words) ∧
      (words.length = 1 → l = words) ∧
      ((∀ k, ¬ (p < uni k)) → l = [words.getD (pick % words.length) []]) := by
  have hlen0 : words.length ≠ 0 := fun h => hne (List.length_eq_zero.mp h)
  by_cases h1 : words.length = 1
  · refine ⟨words, by simp [random_deletion, h1], by omega, le_refl _,
      fun w hw => hw, fun _ => rfl, ?_⟩
    intro _
    rcases words with _ | ⟨w, t⟩
    · exact absurd rfl hne
    · rcases t with _ | ⟨w2, t2⟩
      · simp [Nat.mod_one]
      · simp at h1
  · have hfilter :
        random_deletion uni pick words p =
          (if ((words.enum.filter (fun q => p < uni q.1)).map Prod.snd).length = 0
          then if words.length = 0 then none
            else some [words.getD (pick % words.length) []]
          else some ((words.enum.filter (fun q => p < uni q.1)).map Prod.snd)) := by
      simp [random_deletion, h1]
    by_cases hnil : ((words.enum.filter (fun q => p < uni q.1)).map Prod.snd).length = 0
    · refine ⟨[words.getD (pick % words.length) []], ?_, by simp,
        by simp only [List.length_singleton]; omega, ?_, ?_, ?_⟩
      · rw [hfilter, if_pos hnil, if_neg hlen0]
      · intro w hw
        rw [List.mem_singleton] at hw
        subst hw
        have hidx : pick % words.length < words.length :=
          Nat.mod_lt _ (by omega)
        rw [List.getD_eq_getElem words [] hidx]
        exact List.getElem_mem hidx
      · intro h; exact absurd h h1
      · intro _; rfl
    · refine ⟨(words.enum.filter (fun q => p < uni q.1)).map Prod.snd,
        by rw [hfilter, if_neg hnil], by omega, ?_, ?_, ?_, ?_⟩
      · rw [List.length_map]
        calc (words.enum.filter (fun q => p < uni q.1)).length
            ≤ words.enum.length := List.length_filter_le _ _
          _ = words.length := List.enum_length
      · intro w hw
        obtain ⟨⟨k, w2⟩, hkmem, hw2⟩ := List.mem_map.mp hw
        have hen := (List.mem_filter.mp hkmem).1
        have := List.mem_enum_iff_getElem?.mp hen
        subst hw2
        exact List.getElem?_mem this
      · intro h; exact absurd h h1
      · intro hall
        exfalso
        apply hnil
        rw [List.length_map, List.length_eq_zero, List.filter_eq_nil_iff]
        intro a _
        simp only [decide_eq_true_eq]
        exact hall a.1

theorem c4_random_deletion_bounds_witness :
    ∃ l, random_deletion (fun _ => 0) 0 ["ab".toList, "cd".toList] (mkRat 1 2)
        = some l ∧
      1 ≤ l.length ∧ l.length ≤ (["ab".toList, "cd".toList] : List Word).length ∧
      (∀ w ∈ l, w ∈ (["ab".toList, "cd".toList] : List Word)) ∧
      ((["ab".toList, "cd".toList] : List Word).length = 1 →
        l = ["ab".toList, "cd".toList]) ∧
      ((∀ _ : ℕ, ¬ ((mkRat 1 2 : ℚ) < (0 : ℚ))) →
        l = [(["ab".toList, "cd".toList] : List Word).getD (0 % 2) []]) :=
  c4_random_deletion_bounds (fun _ => 0) 0 ["ab".toList, "cd".toList]
    (mkRat 1 2) (by decide)

/-- C5 counterexample: `random_swap` on the empty token list with n = 1
raises ValueError (`randint(0, -1)`) and returns no list at all, so it
does not return a permutation of its input. -/
theorem c5_swap_perm_counterexample :
    random_swap (fun _ _ => 0) ([] : List Word) 1 = none := rfl

theorem swapTry_perm (pick : ℕ → ℕ) (l : List Word) (i1 : ℕ)
    (hi1 : i1 < l.length) :
    ∀ (tries k : ℕ), (swapTry pick l i1 k tries).Perm l := by
  intro tries
  induction tries with
  | zero => intro k; exact List.Perm.refl l
  | succ tries ih =>
    intro k
    simp only [swapTry]
    by_cases he : pick k % l.length = i1
    · rw [if_pos he]; exact ih (k + 1)
    · rw [if_neg he]
      have hi2 : pick k % l.length < l.length := Nat.mod_lt _ (by omega)
      rw [List.getD_eq_getElem l [] hi2, List.getD_eq_getElem l [] hi1]
      have hswap := perm_set_swap l i1 (pick k % l.length) hi1 hi2
        (fun hc => he hc.symm)
      simpa using hswap

theorem swap_word_perm (pick : ℕ → ℕ) (l : List Word) (hne : l ≠ []) :
    ∃ m, swap_word pick l = some m ∧ m.Perm l := by
  have hlen : ¬ l.length = 0 := fun h => hne (List.length_eq_zero.mp h)
  refine ⟨swapTry pick l (pick 0 % l.length) 1 3, ?_, ?_⟩
  · simp [swap_word, hlen]
  · exact swapTry_perm pick l _ (Nat.mod_lt _ (by omega)) 3 1

/-- C5 (amended): for every n ≥ 0, whenever the token list is nonempty
(or n = 0), `random_swap` returns a list that is a permutation of its
input: same length and same multiset of tokens. -/
theorem c5_swap_perm (pick : ℕ → ℕ → ℕ) (words : List Word) (n : ℕ)
    (h : words ≠ [] ∨ n = 0) :
    ∃ l, random_swap pick words n = some l ∧ l.Perm words := by
  rcases h with hne | rfl
  · induction n with
    | zero => exact ⟨words, rfl, List.Perm.refl words⟩
    | succ n ih =>
      obtain ⟨l, hl, hp⟩ := ih
      have hlne : l ≠ [] := by
        intro he
        rw [he] at hp
        exact hne (List.Perm.eq_nil hp.symm)
      obtain ⟨m, hm, hmp⟩ := swap_word_perm (pick n) l hlne
      refine ⟨m, ?_, hmp.trans hp⟩
      simp only [random_swap, hl, hm]
  · exact ⟨words, rfl, List.Perm.refl words⟩

theorem c5_swap_perm_witness :
    ∃ l, random_swap (fun _ k => k) ["ab".toList, "cd".toList] 1 = some l ∧
      l.Perm ["ab".toList, "cd".toList] :=
  c5_swap_perm (fun _ k => k) ["ab".toList, "cd".toList] 1 (Or.inl (by decide))

/-! ### The normalizer invariant and idempotence (C7) -/

/-- No two adjacent characters are both spaces. -/
def NoTwoSpaces (l : List Char) : Prop :=
  l.Chain' (fun a b => ¬(a = ' ' ∧ b = ' '))

theorem two_step_induction {P : List Char → Prop} (h0 : P [])
    (h1 : ∀ c, P [c])
    (h2 : ∀ c1 c2 rest, P (c2 :: rest) → P (c1 :: c2 :: rest)) :
    ∀ l, P l := by
  intro l
  induction l with
  | nil => exact h0
  | cons c t ih =>
    cases t with
    | nil => exact h1 c
    | cons c2 r => exact h2 c c2 r ih

theorem listReplaceF_id (n0 : Char) (ntl repl : List Char) :
    ∀ (fuel : ℕ) (l : List Char), n0 ∉ l →
      listReplaceF n0 ntl repl fuel l = l := by
  intro fuel
  induction fuel with
  | zero => intro l _; rfl
  | succ fuel ih =>
    intro l hn
    cases l with
    | nil => rfl
    | cons c rest =>
      have hne : (n0 == c) = false := by
        simp only [beq_eq_false_iff_ne]
        intro he
        exact hn (he ▸ List.mem_cons_self c rest)
      have hpre : (n0 :: ntl).isPrefixOf (c :: rest) = false := by
        simp [List.isPrefixOf, hne]
      simp only [listReplaceF, hpre, Bool.false_eq_true, if_false]
      have := ih rest (fun hm => hn (List.mem_cons_of_mem c hm))
      rw [this]

theorem listReplace_id (n0 : Char) (ntl repl : List Char) (l : List Char)
    (h : n0 ∉ l) : listReplace n0 ntl repl l = l :=
  listReplaceF_id n0 ntl repl l.length l h

/-- `validChar` in terms of code points. -/
theorem validChar_toNat (c : Char) (h : validChar c = true) :
    (97 ≤ c.toNat ∧ c.toNat ≤ 122) ∨ c.toNat = 32 := by
  unfold validChar at h
  rw [Bool.or_eq_true, Bool.and_eq_true] at h
  rcases h with ⟨hlo, hhi⟩ | hsp
  · left
    rw [decide_eq_true_eq, Char.le_def] at hlo hhi
    constructor
    · simpa [Char.toNat] using hlo
    · simpa [Char.toNat] using hhi
  · right
    rw [decide_eq_true_eq] at hsp
    subst hsp
    decide

theorem toLower_valid_fix (c : Char) (h : validChar c = true) :
    Char.toLower c = c := by
  unfold Char.toLower
  rw [if_neg]
  rcases validChar_toNat c h with ⟨h1, _⟩ | h1 <;> omega

theorem valid_not_space_not_ws (c : Char) (hval : validChar c = true)
    (hne : c ≠ ' ') : pyWS c = false := by
  unfold pyWS
  simp only [Bool.or_eq_false_iff, decide_eq_false_iff_not]
  refine ⟨⟨⟨⟨⟨hne, ?_⟩, ?_⟩, ?_⟩, ?_⟩, ?_⟩ <;>
    (intro he; rw [he] at hval; exact absurd hval (by decide))

theorem squeeze_cons_cons_pos (c1 c2 : Char) (rest : List Char)
    (h : c1 = ' ' ∧ c2 = ' ') :
    squeezeSpaces (c1 :: c2 :: rest) = squeezeSpaces (c2 :: rest) := by
  simp [squeezeSpaces, h.1, h.2]

theorem squeeze_cons_cons_neg (c1 c2 : Char) (rest : List Char)
    (h : ¬(c1 = ' ' ∧ c2 = ' ')) :
    squeezeSpaces (c1 :: c2 :: rest) = c1 :: squeezeSpaces (c2 :: rest) := by
  have hb : (c1 = ' ' && c2 = ' ') = false := by
    rw [Bool.and_eq_false_iff]
    by_cases h1 : c1 = ' '
    · right
      rw [decide_eq_false_iff_not]
      exact fun h2 => h ⟨h1, h2⟩
    · left
      rw [decide_eq_false_iff_not]
      exact h1
  simp [squeezeSpaces, hb]

theorem squeeze_head (c : Char) :
    ∀ r : List Char, ∃ t, squeezeSpaces (c :: r) = c :: t := by
  intro r
  induction r generalizing c with
  | nil => exact ⟨[], rfl⟩
  | cons c2 rest ih =>
    by_cases hb : c = ' ' ∧ c2 = ' '
    · obtain ⟨t, ht⟩ := ih c2
      refine ⟨t, ?_⟩
      rw [squeeze_cons_cons_pos c c2 rest hb, ht, hb.1, hb.2]
    · exact ⟨squeezeSpaces (c2 :: rest), squeeze_cons_cons_neg c c2 rest hb⟩

theorem squeeze_mem : ∀ (l : List Char), ∀ c ∈ squeezeSpaces l, c ∈ l := by
  refine two_step_induction (by simp [squeezeSpaces]) (by simp [squeezeSpaces]) ?_
  intro c1 c2 rest ih c hc
  by_cases hb : c1 = ' ' ∧ c2 = ' '
  · rw [squeeze_cons_cons_pos c1 c2 rest hb] at hc
    exact List.mem_cons_of_mem c1 (ih c hc)
  · rw [squeeze_cons_cons_neg c1 c2 rest hb] at hc
    rcases List.mem_cons.mp hc with rfl | hc2
    · exact List.mem_cons_self _ _
    · exact List.mem_cons_of_mem c1 (ih c hc2)

theorem squeeze_noTwo : ∀ l : List Char, NoTwoSpaces (squeezeSpaces l) := by
  refine two_step_induction (by simp [NoTwoSpaces, squeezeSpaces])
    (by intro c; simp [NoTwoSpaces, squeezeSpaces]) ?_
  intro c1 c2 rest ih
  by_cases hb : c1 = ' ' ∧ c2 = ' '
  · rw [NoTwoSpaces, squeeze_cons_cons_pos c1 c2 rest hb]
    exact ih
  · rw [NoTwoSpaces, squeeze_cons_cons_neg c1 c2 rest hb]
    obtain ⟨t, ht⟩ := squeeze_head c2 rest
    rw [ht, List.chain'_cons]
    exact ⟨hb, by rw [← ht]; exact ih⟩

theorem noTwo_squeeze_id : ∀ l : List Char, NoTwoSpaces l → squeezeSpaces l = l := by
  refine two_step_induction (fun _ => rfl) (fun c _ => rfl) ?_
  intro c1 c2 rest ih h
  rw [NoTwoSpaces, List.chain'_cons] at h
  rw [squeeze_cons_cons_neg c1 c2 rest h.1, ih h.2]

theorem dropWhile_head_not (p : Char → Bool) :
    ∀ (l : List Char) (c : Char), (l.dropWhile p).head? = some c → p c = false := by
  intro l
  induction l with
  | nil => intro c h; simp [List.dropWhile] at h
  | cons a t ih =>
    intro c h
    by_cases hp : p a = true
    · rw [List.dropWhile_cons, if_pos hp] at h
      exact ih c h
    · rw [List.dropWhile_cons, if_neg hp] at h
      rw [List.head?_cons, Option.some.injEq] at h
      rw [← h]
      exact Bool.eq_false_iff.mpr hp

theorem suffix_getLast (l1 l2 : List Char) (hs : l2 <:+ l1) (hne : l2 ≠ []) :
    l2.getLast? = l1.getLast? := by
  obtain ⟨t, ht⟩ := hs
  rw [← ht, List.getLast?_append]
  cases hl : l2.getLast? with
  | none => exact absurd (List.getLast?_eq_none_iff.mp hl) hne
  | some c => rfl

theorem pyStrip_mem (l : List Char) : ∀ c ∈ pyStrip l, c ∈ l := by
  intro c hc
  unfold pyStrip at hc
  rw [List.mem_reverse] at hc
  have h1 := (List.dropWhile_suffix pyWS).sublist.subset hc
  rw [List.mem_reverse] at h1
  exact (List.dropWhile_suffix pyWS).sublist.subset h1

theorem noTwo_flip {l : List Char} (h : NoTwoSpaces l) :
    l.Chain' (flip (fun a b => ¬(a = ' ' ∧ b = ' '))) :=
  List.Chain'.imp (fun _ _ hab hba => hab ⟨hba.2, hba.1⟩) h

theorem noTwo_reverse {l : List Char} (h : NoTwoSpaces l) :
    NoTwoSpaces l.reverse := by
  rw [NoTwoSpaces, List.chain'_reverse]
  exact noTwo_flip h

theorem pyStrip_noTwo (l : List Char) (h : NoTwoSpaces l) :
    NoTwoSpaces (pyStrip l) := by
  unfold pyStrip
  apply noTwo_reverse
  exact (noTwo_reverse (h.suffix (List.dropWhile_suffix pyWS))).suffix
    (List.dropWhile_suffix pyWS)

theorem pyStrip_head_not_ws (l : List Char) (c : Char)
    (h : (pyStrip l).head? = some c) : pyWS c = false := by
  unfold pyStrip at h
  rw [List.head?_reverse] at h
  have hne : (((l.dropWhile pyWS).reverse).dropWhile pyWS) ≠ [] := by
    intro he
    rw [he] at h
    simp at h
  rw [suffix_getLast _ _ (List.dropWhile_suffix pyWS) hne,
    List.getLast?_reverse] at h
  exact dropWhile_head_not pyWS _ c h

theorem pyStrip_last_not_ws (l : List Char) (c : Char)
    (h : (pyStrip l).getLast? = some c) : pyWS c = false := by
  unfold pyStrip at h
  rw [List.getLast?_reverse] at h
  exact dropWhile_head_not pyWS _ c h

theorem dropWhile_eq_self_of_head (p : Char → Bool) (l : List Char)
    (h : ∀ c, l.head? = some c → p c = false) : l.dropWhile p = l := by
  cases l with
  | nil => rfl
  | cons a t =>
    rw [List.dropWhile_cons, if_neg]
    rw [h a rfl]
    simp

theorem pyStrip_id (l : List Char)
    (hh : ∀ c, l.head? = some c → pyWS c = false)
    (hl : ∀ c, l.getLast? = some c → pyWS c = false) : pyStrip l = l := by
  unfold pyStrip
  rw [dropWhile_eq_self_of_head pyWS l hh]
  rw [dropWhile_eq_self_of_head pyWS l.reverse
    (fun c hc => hl c (by rwa [List.head?_reverse] at hc))]
  exact List.reverse_reverse l

/-- The invariant shape of normalizer output: only valid characters, no
two adjacent spaces, and no space at either end. -/
def Clean (l : List Char) : Prop :=
  (∀ c ∈ l, validChar c = true) ∧ NoTwoSpaces l ∧
  (∀ c, l.head? = some c → c ≠ ' ') ∧ (∀ c, l.getLast? = some c → c ≠ ' ')

theorem get_only_chars_clean (l : List Char) : Clean (get_only_chars l) := by
  show Clean (pyStrip (squeezeSpaces (List.map (fun c => if validChar c then c else ' ')
    (List.map Char.toLower (listReplace (Char.ofNat 10) [] [' ']
      (listReplace (Char.ofNat 9) [] [' '] (listReplace (Char.ofNat 45) [] [' ']
        (listReplace (Char.ofNat 39) [] []
          (listReplace (Char.ofNat 226) [Char.ofNat 8364, Char.ofNat 8482] [] l)))))))))
  set y := List.map (fun c => if validChar c then c else ' ')
    (List.map Char.toLower (listReplace (Char.ofNat 10) [] [' ']
      (listReplace (Char.ofNat 9) [] [' '] (listReplace (Char.ofNat 45) [] [' ']
        (listReplace (Char.ofNat 39) [] []
          (listReplace (Char.ofNat 226) [Char.ofNat 8364, Char.ofNat 8482] [] l)))))) with hy
  have hval : ∀ c ∈ y, validChar c = true := by
    intro c hc
    rw [hy] at hc
    obtain ⟨a, _, ha⟩ := List.mem_map.mp hc
    rw [← ha]
    by_cases hv : validChar a = true
    · rw [if_pos hv]; exact hv
    · rw [if_neg hv]; decide
  refine ⟨?_, ?_, ?_, ?_⟩
  · intro c hc
    exact hval c (squeeze_mem y c (pyStrip_mem _ c hc))
  · exact pyStrip_noTwo _ (squeeze_noTwo y)
  · intro c hc
    intro he
    have := pyStrip_head_not_ws _ c hc
    rw [he] at this
    exact absurd this (by decide)
  · intro c hc
    intro he
    have := pyStrip_last_not_ws _ c hc
    rw [he] at this
    exact absurd this (by decide)

theorem get_only_chars_clean_id (l : List Char) (h : Clean l) :
    get_only_chars l = l := by
  obtain ⟨hv, hnt, hh, hl⟩ := h
  have hnm : ∀ c : Char, validChar c = false → c ∉ l := by
    intro c hc hm
    rw [hv c hm] at hc
    exact absurd hc (by simp)
  show pyStrip (squeezeSpaces (List.map (fun c => if validChar c then c else ' ')
    (List.map Char.toLower (listReplace (Char.ofNat 10) [] [' ']
      (listReplace (Char.ofNat 9) [] [' '] (listReplace (Char.ofNat 45) [] [' ']
        (listReplace (Char.ofNat 39) [] []
          (listReplace (Char.ofNat 226) [Char.ofNat 8364, Char.ofNat 8482] [] l)))))))) = l
  rw [listReplace_id _ _ _ _ (hnm _ (by decide)),
    listReplace_id _ _ _ _ (hnm _ (by decide)),
    listReplace_id _ _ _ _ (hnm _ (by decide)),
    listReplace_id _ _ _ _ (hnm _ (by decide)),
    listReplace_id _ _ _ _ (hnm _ (by decide))]
  have hlow : List.map Char.toLower l = l := by
    have he : List.map Char.toLower l = List.map id l :=
      List.map_congr_left (fun a ha => toLower_valid_fix a (hv a ha))
    rw [he, List.map_id]
  rw [hlow]
  have hvalmap : List.map (fun c => if validChar c then c else ' ') l = l := by
    have he : List.map (fun c => if validChar c then c else ' ') l = List.map id l :=
      List.map_congr_left (fun a ha => by rw [if_pos (hv a ha)]; rfl)
    rw [he, List.map_id]
  rw [hvalmap, noTwo_squeeze_id l hnt]
  refine pyStrip_id l ?_ ?_
  · intro c hc
    refine valid_not_space_not_ws c (hv c ?_) (hh c hc)
    exact List.mem_of_mem_head? (by rw [hc]; rfl)
  · intro c hc
    refine valid_not_space_not_ws c (hv c ?_) (hl c hc)
    exact List.mem_of_mem_getLast? (by rw [hc]; rfl)

/-- C7: the normalizer is idempotent: `get_only_chars` applied twice
equals `get_only_chars` applied once, for every input string. -/
theorem c7_normalizer_idempotent (x : List Char) :
    get_only_chars (get_only_chars x) = get_only_chars x :=
  get_only_chars_clean_id _ (get_only_chars_clean x)

/-! ### The orchestrator keeps the original sentence first (C3) -/

theorem edaFinish_shape (rng : Rng) (sentence : Word) (num_aug : ℚ)
    (randomize : Bool) (augmented : List Word) (out : List Word)
    (h : edaFinish rng sentence num_aug randomize augmented = some out) :
    ∃ tail, out = sentence :: tail := by
  unfold edaFinish at h
  split at h
  all_goals try simp only [] at h
  all_goals try split at h
  all_goals try split at h
  all_goals try split at h
  all_goals
    first
      | (injection h with h2; exact ⟨_, h2.symm⟩)
      | exact absurd h (by simp)

set_option maxHeartbeats 1000000 in
/-- C3: whenever `eda` returns, the returned list is the verbatim
original sentence followed by some tail of generated variants, for every
combination of parameters — including `randomize = true`, whose shuffle
is applied to the generated list before the original is prepended, so
only entries after index 0 are reordered. -/
theorem c3_original_first (lex : Lex) (rng : Rng) (sentence : Word)
    (num_aug alpha_sr alpha_ri alpha_rs alpha_rd : ℚ) (randomize : Bool)
    (out : List Word)
    (h : eda lex rng sentence num_aug alpha_sr alpha_ri alpha_rs alpha_rd
      randomize = some out) :
    ∃ tail, out = sentence :: tail := by
  unfold eda at h
  simp only [] at h
  split at h
  · refine ⟨[], ?_⟩
    injection h with h2
    exact h2.symm
  · split at h
    · exact absurd h (by simp)
    · split at h
      · exact absurd h (by simp)
      · exact edaFinish_shape _ _ _ _ _ _ h

theorem c3_original_first_witness : ∃ tail, ([[]] : List Word) = [] :: tail :=
  c3_original_first lex0 rng0 [] 4 0 0 0 0 false [[]] (by decide)

/-! ### The swap-only scenario (C6) -/

theorem intercalate_single (w : Word) : List.intercalate [' '] [w] = w := by
  simp [List.intercalate]

theorem intercalate_cons_cons (w w2 : Word) (rest : List Word) :
    List.intercalate [' '] (w :: w2 :: rest)
      = w ++ ' ' :: List.intercalate [' '] (w2 :: rest) := by
  simp [List.intercalate, List.intersperse]

theorem noTwo_of_no_space : ∀ l : List Char, (∀ c ∈ l, c ≠ ' ') →
    NoTwoSpaces l := by
  refine two_step_induction (by simp [NoTwoSpaces]) (by simp [NoTwoSpaces]) ?_
  intro c1 c2 rest ih h
  rw [NoTwoSpaces, List.chain'_cons]
  constructor
  · intro hc
    exact h c1 (by simp) hc.1
  · exact ih (fun c hc => h c (List.mem_cons_of_mem _ hc))

theorem head_intercalate (w2 : Word) (rest : List Word) (h : w2 ≠ []) :
    (List.intercalate [' '] (w2 :: rest)).head? = w2.head? := by
  cases rest with
  | nil => rw [intercalate_single]
  | cons w3 r =>
    rw [intercalate_cons_cons, List.head?_append]
    cases w2 with
    | nil => exact absurd rfl h
    | cons c t => rfl

theorem intercalate_ne_nil (w2 : Word) (rest : List Word) (h : w2 ≠ []) :
    List.intercalate [' '] (w2 :: rest) ≠ [] := by
  intro he
  have hh := head_intercalate w2 rest h
  rw [he] at hh
  cases w2 with
  | nil => exact absurd rfl h
  | cons c t => exact absurd hh.symm (by simp)

theorem clean_join (ws : List Word) (hne : ws ≠ [])
    (hw : ∀ w ∈ ws, w ≠ [] ∧ ∀ c ∈ w, validChar c = true ∧ c ≠ ' ') :
    Clean (List.intercalate [' '] ws) := by
  induction ws with
  | nil => exact absurd rfl hne
  | cons w rest ih =>
    obtain ⟨hwne, hwc⟩ := hw w (by simp)
    cases rest with
    | nil =>
      rw [intercalate_single]
      refine ⟨fun c hc => (hwc c hc).1,
        noTwo_of_no_space w (fun c hc => (hwc c hc).2), ?_, ?_⟩
      · intro c hc
        exact (hwc c (List.mem_of_mem_head? (by rw [hc]; rfl))).2
      · intro c hc
        exact (hwc c (List.mem_of_mem_getLast? (by rw [hc]; rfl))).2
    | cons w2 rest2 =>
      obtain ⟨hvalid2, hnt2, hh2, hl2⟩ :=
        ih (by simp) (fun u hu => hw u (List.mem_cons_of_mem _ hu))
      obtain ⟨hw2ne, _⟩ := hw w2 (by simp)
      rw [intercalate_cons_cons]
      have hJne : List.intercalate [' '] (w2 :: rest2) ≠ [] :=
        intercalate_ne_nil w2 rest2 hw2ne
      refine ⟨?_, ?_, ?_, ?_⟩
      · intro c hc
        rcases List.mem_append.mp hc with hcw | hctl
        · exact (hwc c hcw).1
        · rcases List.mem_cons.mp hctl with rfl | hcj
          · decide
          · exact hvalid2 c hcj
      · rw [NoTwoSpaces, List.chain'_append]
        refine ⟨noTwo_of_no_space w (fun c hc => (hwc c hc).2), ?_, ?_⟩
        · cases hJ : List.intercalate [' '] (w2 :: rest2) with
          | nil => exact absurd hJ hJne
          | cons j0 jt =>
            rw [List.chain'_cons]
            constructor
            · intro hcon
              exact hh2 j0 (by rw [hJ]; rfl) hcon.2
            · rw [NoTwoSpaces, hJ] at hnt2
              exact hnt2
        · intro x hx y _ hcon
          have hxw : x ∈ w := List.mem_of_mem_getLast? hx
          exact (hwc x hxw).2 hcon.1
      · intro c hc
        cases w with
        | nil => exact absurd rfl hwne
        | cons c0 t =>
          simp only [List.cons_append, List.head?_cons, Option.some.injEq] at hc
          rw [← hc]
          exact (hwc c0 (by simp)).2
      · intro c hc
        rw [show (w ++ ' ' :: List.intercalate [' '] (w2 :: rest2))
            = (w ++ [' ']) ++ List.intercalate [' '] (w2 :: rest2) from by simp,
          List.getLast?_append] at hc
        cases hJ : List.intercalate [' '] (w2 :: rest2) with
        | nil => exact absurd hJ hJne
        | cons j0 jt =>
          rw [hJ] at hc
          cases hgl : (j0 :: jt).getLast? with
          | none => exact absurd (List.getLast?_eq_none_iff.mp hgl) (by simp)
          | some z =>
            rw [hgl] at hc
            injection hc with hzc
            rw [← hzc]
            exact hl2 z (by rw [hJ]; exact hgl)

/-- The scenario sentence of the specification test. -/
def c6Sentence : Word := "The quick brown fox jumps".toList

/-- The normalized token sequence of the scenario sentence. -/
def c6Words : List Word :=
  ["the".toList, "quick".toList, "brown".toList, "fox".toList, "jumps".toList]

/-- In the scenario, every terminating allocation run gives both swap
variants to the swap operator: counts [0, 0, 2, 0]. -/
theorem c6_counts (stream : ℕ → Fin 4) (fuel : ℕ) (counts : List ℤ)
    (h : getNumPerTechnique stream fuel 2 [0, 0, mkRat 3 10, 0] = some counts) :
    counts = [0, 0, 2, 0] := by
  rw [getNum_cons_eq] at h
  have hsum := distribLoop_sum _ stream fuel _ _ 0 counts (by simp) h
    (remainder_nonneg _)
  have hfals0 : ∀ f, ([0, 0, mkRat 3 10, 0] : List ℚ).get? 0 = some f →
      truthy f = false := by
    intro f hf
    simp only [List.get?] at hf
    injection hf with h2
    rw [← h2]
    decide
  have hfals1 : ∀ f, ([0, 0, mkRat 3 10, 0] : List ℚ).get? 1 = some f →
      truthy f = false := by
    intro f hf
    simp only [List.get?] at hf
    injection hf with h2
    rw [← h2]
    decide
  have hfals3 : ∀ f, ([0, 0, mkRat 3 10, 0] : List ℚ).get? 3 = some f →
      truthy f = false := by
    intro f hf
    simp only [List.get?] at hf
    injection hf with h2
    rw [← h2]
    decide
  have ha : counts.getD 0 0 = 0 := by
    rw [distribLoop_getD_falsy _ stream fuel _ _ 0 counts h 0 hfals0]
    decide
  have hb : counts.getD 1 0 = 0 := by
    rw [distribLoop_getD_falsy _ stream fuel _ _ 0 counts h 1 hfals1]
    decide
  have hd : counts.getD 3 0 = 0 := by
    rw [distribLoop_getD_falsy _ stream fuel _ _ 0 counts h 3 hfals3]
    decide
  have hs : counts.sum = 2 := by
    rw [hsum.1]
    decide
  have hlen : counts.length = 4 := by
    rw [hsum.2]
    rfl
  rcases counts with _ | ⟨a, _ | ⟨b, _ | ⟨c, _ | ⟨d, t⟩⟩⟩⟩ <;>
    simp only [List.length_cons, List.length_nil] at hlen
  · omega
  · omega
  · omega
  · omega
  · have ht : t = [] := by
      rw [← List.length_eq_zero]
      omega
    subst ht
    simp only [List.getD_cons_zero, List.getD_cons_succ] at ha hb hd
    simp only [List.sum_cons, List.sum_nil] at hs
    subst ha
    subst hb
    subst hd
    have hc : c = 2 := by omega
    rw [hc]

/-- In the scenario, the operator phase produces exactly the two swap
variants, each a permutation of the five normalized words. -/
theorem c6_ops (lex : Lex) (rng : Rng) (aug : List Word)
    (h : edaOps lex rng c6Words 0 0 (mkRat 3 10) 0 [0, 0, 2, 0] = some aug) :
    aug.length = 2 ∧ ∀ v ∈ aug, (List.splitOn ' ' v).Perm c6Words := by
  have hrw : edaOps lex rng c6Words 0 0 (mkRat 3 10) 0 [0, 0, 2, 0]
      = (([0, 1] : List ℕ).mapM (fun i =>
          (random_swap (rng.rsPick i) c6Words 1).map (List.intercalate [' '])))
        >>= (fun rsS => some ((([] ++ [] ++ rsS ++ []) : List Word).map
          get_only_chars)) := rfl
  rw [hrw] at h
  cases hX : ([0, 1] : List ℕ).mapM (fun i =>
      (random_swap (rng.rsPick i) c6Words 1).map (List.intercalate [' '])) with
  | none =>
    rw [hX] at h
    exact absurd h (by simp)
  | some rsS =>
    rw [hX] at h
    have h2 : some ((([] ++ [] ++ rsS ++ []) : List Word).map get_only_chars)
        = some aug := h
    injection h2 with h3
    obtain ⟨m0, hswap0, hperm0⟩ :=
      swap_word_perm (rng.rsPick 0 0) c6Words (by decide)
    obtain ⟨m1, hswap1, hperm1⟩ :=
      swap_word_perm (rng.rsPick 1 0) c6Words (by decide)
    simp only [List.mapM_cons, List.mapM_nil] at hX
    rw [show random_swap (rng.rsPick 0) c6Words 1
        = swap_word (rng.rsPick 0 0) c6Words from rfl, hswap0,
      show random_swap (rng.rsPick 1) c6Words 1
        = swap_word (rng.rsPick 1 0) c6Words from rfl, hswap1] at hX
    have hX2 : some [List.intercalate [' '] m0, List.intercalate [' '] m1]
        = some rsS := hX
    injection hX2 with hX3
    have hc6 : ∀ w ∈ c6Words, w ≠ [] ∧ ∀ c ∈ w, validChar c = true ∧ c ≠ ' ' := by
      decide
    have hne0 : m0 ≠ [] := by
      intro he
      rw [he] at hperm0
      exact absurd hperm0.symm.eq_nil (by decide)
    have hne1 : m1 ≠ [] := by
      intro he
      rw [he] at hperm1
      exact absurd hperm1.symm.eq_nil (by decide)
    have hprops0 : ∀ w ∈ m0, w ≠ [] ∧ ∀ c ∈ w, validChar c = true ∧ c ≠ ' ' :=
      fun w hw => hc6 w (hperm0.mem_iff.mp hw)
    have hprops1 : ∀ w ∈ m1, w ≠ [] ∧ ∀ c ∈ w, validChar c = true ∧ c ≠ ' ' :=
      fun w hw => hc6 w (hperm1.mem_iff.mp hw)
    have hclean0 : get_only_chars (List.intercalate [' '] m0)
        = List.intercalate [' '] m0 :=
      get_only_chars_clean_id _ (clean_join m0 hne0 hprops0)
    have hclean1 : get_only_chars (List.intercalate [' '] m1)
        = List.intercalate [' '] m1 :=
      get_only_chars_clean_id _ (clean_join m1 hne1 hprops1)
    have htok0 : List.splitOn ' ' (List.intercalate [' '] m0) = m0 :=
      List.splitOn_intercalate m0 ' '
        (fun l hl hs => ((hprops0 l hl).2 ' ' hs).2 rfl) hne0
    have htok1 : List.splitOn ' ' (List.intercalate [' '] m1) = m1 :=
      List.splitOn_intercalate m1 ' '
        (fun l hl hs => ((hprops1 l hl).2 ' ' hs).2 rfl) hne1
    rw [← hX3] at h3
    simp only [List.nil_append, List.append_nil, List.map_cons, List.map_nil] at h3
    rw [hclean0, hclean1] at h3
    rw [← h3]
    refine ⟨rfl, ?_⟩
    intro v hv
    rcases List.mem_cons.mp hv with rfl | hv2
    · rw [htok0]
      exact hperm0
    · rcases List.mem_cons.mp hv2 with rfl | hv3
      · rw [htok1]
        exact hperm1
      · exact absurd hv3 (by simp)

/-- Draws that make both swaps exchange the first two words. -/
def rng6 : Rng := { rng0 with rsPick := fun _ _ k => k }

/-- The swap variant produced by `rng6` in the scenario. -/
def c6Variant : Word := "quick the brown fox jumps".toList

set_option maxHeartbeats 1000000 in
/-- C6 (amended): for the sentence "The quick brown fox jumps" with
`alpha_rs = 0.3`, the other alphas `0` and `num_aug = 2`, whenever the
trim draws stay below 1 (as `random.uniform(0,1)` does almost surely)
every returning run of `eda` yields exactly 3 strings: the verbatim
original first, then 2 swap variants, each of whose token lists is a
permutation of the five normalized (lower-cased) words — the original
itself, starting with capital "The", is not such a permutation. -/
theorem c6_swap_scenario (lex : Lex) (rng : Rng) (out : List Word)
    (hu : ∀ k, rng.trimUni k < 1)
    (h : eda lex rng c6Sentence 2 0 0 (mkRat 3 10) 0 false = some out) :
    out.length = 3 ∧ out.head? = some c6Sentence ∧
      ∀ v ∈ out.tail, (List.splitOn ' ' v).Perm c6Words := by
  unfold eda at h
  simp only [] at h
  rw [show (List.splitOn ' ' (get_only_chars c6Sentence)).filter
      (fun w => w ≠ []) = c6Words from by decide] at h
  rw [if_neg (show ¬ c6Words.length = 0 from by decide)] at h
  split at h
  · exact absurd h (by simp)
  case _ counts hcounts =>
    rw [c6_counts _ _ _ hcounts] at h
    split at h
    · exact absurd h (by simp)
    case _ augmented hops =>
      obtain ⟨hlen2, hperm⟩ := c6_ops _ _ _ hops
      have h2 : (if 1 ≤ (2 : ℚ) ∧ pyInt 2 < (augmented.length : ℤ) then
          some (c6Sentence :: augmented.take (pyInt 2).toNat)
        else if 0 < (2 : ℚ) then
          if augmented.length = 0 then none
          else some (c6Sentence :: (augmented.enum.filter
            (fun p => rng.trimUni p.1 < ratDiv 2 (ratOfNat augmented.length))).map
              Prod.snd)
        else some (c6Sentence :: augmented)) = some out := h
      rw [if_neg (show ¬ (1 ≤ (2 : ℚ) ∧ pyInt 2 < (augmented.length : ℤ)) from by
          rintro ⟨h1a, h1b⟩
          rw [hlen2] at h1b
          exact absurd h1b (by decide))] at h2
      rw [if_pos (show (0 : ℚ) < 2 from by decide)] at h2
      rw [if_neg (show ¬ augmented.length = 0 from by rw [hlen2]; decide)] at h2
      have hfil : List.filter
          (fun p => decide (rng.trimUni p.1 < ratDiv 2 (ratOfNat augmented.length)))
          augmented.enum = augmented.enum := by
        refine List.filter_eq_self.mpr ?_
        intro a ha
        refine decide_eq_true ?_
        rw [show ratDiv 2 (ratOfNat augmented.length) = 1 from by
          rw [hlen2]; decide]
        exact hu a.1
      rw [hfil, List.enum_map_snd] at h2
      injection h2 with h3
      rw [← h3]
      refine ⟨?_, rfl, ?_⟩
      · simp only [List.length_cons, hlen2]
      · intro v hv
        exact hperm v hv

/-- C6, refuting the original wording: a concrete run of the scenario
returns the original plus two swap variants, and these three strings are
not all permutations of one common word list, because the original keeps
its capitalized "The" while the variants use the normalized "the". -/
theorem c6_swap_scenario_counterexample :
    eda lex0 rng6 c6Sentence 2 0 0 (mkRat 3 10) 0 false
      = some [c6Sentence, c6Variant, c6Variant] ∧
    ¬ ∃ ws : List Word, ∀ x ∈ [c6Sentence, c6Variant, c6Variant],
      (List.splitOn ' ' x).Perm ws := by
  refine ⟨by decide, ?_⟩
  rintro ⟨ws, hws⟩
  have h1 := hws c6Sentence (by simp)
  have h2 := hws c6Variant (by simp)
  have h3 := h1.trans h2.symm
  have h4 := h3.mem_iff.mp
    (show "The".toList ∈ List.splitOn ' ' c6Sentence from by decide)
  exact absurd h4 (by decide)

theorem c6_swap_scenario_witness :
    (∀ k, rng6.trimUni k < 1) ∧
    ([c6Sentence, c6Variant, c6Variant].length = 3 ∧
      [c6Sentence, c6Variant, c6Variant].head? = some c6Sentence ∧
      ∀ v ∈ [c6Sentence, c6Variant, c6Variant].tail,
        (List.splitOn ' ' v).Perm c6Words) :=
  ⟨fun _ => (by decide : (0 : ℚ) < 1),
    c6_swap_scenario lex0 rng6 [c6Sentence, c6Variant, c6Variant]
      (fun _ => (by decide : (0 : ℚ) < 1)) (by decide)⟩

end EdaNlp
